import Mathlib

/-!
Verification of the waveloc waveform-processing module (OP_waveforms.py).

The numeric code is shallowly embedded over the rationals: every float of the
source is modelled as a rational number, every numpy array as a list of
rationals.  Fallible code (python exceptions) is modelled with Except.
External-library calls (numpy, obspy) are embedded by their documented
semantics; the two transcendental constants of compute_gauss (the exponential
and sqrt of two pi) are abstracted as function and constant parameters, and all
theorems about compute_gauss assume only their positivity.

Layout: all definitions come first, then the supporting lemmas, then one
theorem per claim (with its witness or counterexample where required).
-/

/-- Python exception kinds that the embedded functions can raise. -/
inductive PyError where
  | userWarning : PyError
  | indexError : PyError
  | nameError : PyError
deriving DecidableEq, Repr

/- ## Generic list helpers (embedding of numpy array primitives) -/

/-- Embedding of a single-cell array write a[n] = v.  Out-of-range writes
leave the list unchanged (such writes never occur on the paths the source
exercises). -/
def listSet : List ℚ → ℕ → ℚ → List ℚ
  | [], _, _ => []
  | _ :: t, 0, v => v :: t
  | u :: t, n + 1, v => u :: listSet t n v

/-- Embedding of the slice write a[lo:hi] = 0, on a list whose first element
has absolute index k. -/
def zeroRangeAux : List ℚ → ℕ → ℕ → ℕ → List ℚ
  | [], _, _, _ => []
  | v :: t, k, lo, hi => (if lo ≤ k ∧ k < hi then 0 else v) :: zeroRangeAux t (k + 1) lo hi

/-- Embedding of the python slice x[lo:hi+1] (an inclusive index range). -/
def sliceIncl (x : List ℚ) (lo hi : ℕ) : List ℚ :=
  (x.drop lo).take (hi + 1 - lo)

/-- Embedding of np.argmax on the tail of a list: i is the absolute index of
the head of the remaining list, best the index of the running maximum bv.
np.argmax returns the first index attaining the maximum, so the running
maximum is replaced only on a strict increase. -/
def argmaxAux : List ℚ → ℕ → ℕ → ℚ → ℕ
  | [], _, best, _ => best
  | v :: t, i, best, bv =>
    if bv < v then argmaxAux t (i + 1) i v else argmaxAux t (i + 1) best bv

/-- Embedding of np.argmax (first index of the maximum; the numpy call raises
on an empty array, which never occurs on the paths the source exercises). -/
def npArgmax : List ℚ → ℕ
  | [] => 0
  | v :: t => argmaxAux t 1 0 v

/-- Embedding of np.max for a non-empty array (np.max raises on an empty
array; the source only consults it on non-empty data). -/
def npMax : List ℚ → ℚ
  | [] => 0
  | a :: t => t.foldl max a

/-- Embedding of np.arange(start, stop, step) for positive step: the number of
points is the ceiling of (stop - start) / step. -/
def npArange (start stop step : ℚ) : List ℚ :=
  let n := (⌈(stop - start) / step⌉).toNat
  (List.range n).map fun k : ℕ => start + (k : ℚ) * step

/-- Embedding of np.unique: the sorted list of distinct values. -/
def npUnique (l : List ℚ) : List ℚ :=
  List.insertionSort (· ≤ ·) l.dedup

/-- Embedding of the full discrete convolution np.convolve(a, v) (mode full):
entry k sums a[i] * v[k-i] over the indices where both factors exist. -/
def convolveFull (a v : List ℚ) : List ℚ :=
  (List.range (a.length + v.length - 1)).map fun k =>
    (List.range a.length).foldl
      (fun acc i => if i ≤ k then acc + a.getD i 0 * v.getD (k - i) 0 else acc) 0

/-- Embedding of np.convolve(a, v, mode same): the central max(M, N) entries
of the full convolution, starting at offset (min(M, N) - 1) / 2. -/
def convolveSame (a v : List ℚ) : List ℚ :=
  ((convolveFull a v).drop ((min a.length v.length - 1) / 2)).take
    (max a.length v.length)

/- ## obspy trigger detection (external collaborator of process_gaussian) -/

/-- Helper for triggerOnset: scans the signal left to right at absolute index
i, carrying the start index of the run currently above threshold (if any), and
emits each maximal run as the pair (first index, last index). -/
def runsAux : List ℚ → ℚ → ℕ → Option ℕ → List (ℕ × ℕ)
  | [], _, _, none => []
  | [], _, i, some s => [(s, i - 1)]
  | v :: t, thr, i, none =>
    if thr < v then runsAux t thr (i + 1) (some i) else runsAux t thr (i + 1) none
  | v :: t, thr, i, some s =>
    if thr < v then runsAux t thr (i + 1) (some s)
    else (s, i - 1) :: runsAux t thr (i + 1) none

/-- Embedding of obspy trigger.triggerOnset(x, thr, thr) with equal on and off
thresholds: the maximal runs of indices where the signal strictly exceeds the
threshold, each reported as (onset index, last index above threshold). -/
def triggerOnset (x : List ℚ) (thr : ℚ) : List (ℕ × ℕ) :=
  runsAux x thr 0 none

/- ## Waveform.process_gaussian (OP_waveforms.py, lines 796-850) -/

/-- Embedding of one iteration of the trigger loop in process_gaussian.  The
state is the dirac buffer together with trig_prec (initially [0, 0]).  The
incoming interval is widened to [trig_prec[0], trig[-1]] whenever
trig[-1] - trig_prec[0] < 50 (integer arithmetic, hence the cast to ℤ); the
buffer is zeroed on [istart, iend) and the sample of maximum signal value on
[istart, iend] receives np.max(tr.data[imax]), which is the scalar
tr.data[imax] itself. -/
def diracStep (x : List ℚ) (st : List ℚ × (ℕ × ℕ)) (trig : ℕ × ℕ) :
    List ℚ × (ℕ × ℕ) :=
  let t := if (trig.2 : ℤ) - (st.2.1 : ℤ) < 50 then (st.2.1, trig.2) else trig
  let istart := t.1
  let iend := t.2
  let imax := if istart ≠ iend then npArgmax (sliceIncl x istart iend) + istart else istart
  (listSet (zeroRangeAux st.1 0 istart iend) imax (x.getD imax 0), t)

/-- Embedding of the impulse train tr_dirac built by process_gaussian before
the convolution step: a zero buffer of the trace length, folded through the
trigger intervals. -/
def diracOf (x : List ℚ) (thr : ℚ) : List ℚ :=
  ((triggerOnset x thr).foldl (diracStep x) (List.replicate x.length 0, (0, 0))).1

/-- Embedding of the per-trace body of process_gaussian: build the impulse
train, convolve it with the kernel y in mode same, drop the first sample of
the result and append a zero (np.append(conv[1:], 0)).  np.convolve raises
ValueError when either argument is empty; the source catches it and keeps the
trace data unchanged. -/
def process_gaussian_trace (x : List ℚ) (threshold : ℚ) (y : List ℚ) : List ℚ :=
  let d := diracOf x threshold
  if d = [] ∨ y = [] then x
  else ((convolveSame d y).drop 1) ++ [0]

/- ## compute_gauss (OP_waveforms.py, lines 974-994) -/

/-- Embedding of compute_gauss(dt, mu, sig).  The sample grid is
np.arange(-4*sig, 4*sig, dt); the unnormalized values are
1/(sig*sqrt(2*pi)) * exp(-(t-mu)^2/(2*sig^2)), with sqrt(2*pi) abstracted as
the parameter s2pi and exp as the parameter gexp (both irrational in general);
the result is divided by its maximum. -/
def compute_gauss (dt mu sig : ℚ) (s2pi : ℚ) (gexp : ℚ → ℚ) : List ℚ :=
  let x := npArange (-(4 * sig)) (4 * sig) dt
  let y := x.map fun t => 1 / (sig * s2pi) * gexp (-((t - mu) ^ 2) / (2 * sig ^ 2))
  y.map fun v => v / npMax y

/- ## stream_positive_derivative (OP_waveforms.py, lines 872-893) -/

/-- Embedding of np.gradient(xs, dt) for one-dimensional input of length at
least two: one-sided differences at the two ends, central differences inside.
On input of length zero or one the numpy call of that era raises IndexError,
which the source catches; npGradient is never consulted there. -/
def npGradient (xs : List ℚ) (dt : ℚ) : List ℚ :=
  let n := xs.length
  (List.range n).map fun i =>
    if i = 0 then (xs.getD 1 0 - xs.getD 0 0) / dt
    else if i = n - 1 then (xs.getD (n - 1) 0 - xs.getD (n - 2) 0) / dt
    else (xs.getD (i + 1) 0 - xs.getD (i - 1) 0) / (2 * dt)

/-- Embedding of the per-trace body of stream_positive_derivative: take the
gradient and clamp negative values to zero.  For traces of length below two,
np.gradient raises IndexError, the source catches it and keeps the trace data
unchanged (the except branch logs and performs no clamping). -/
def posDerivTrace (xs : List ℚ) (dt : ℚ) : List ℚ :=
  if xs.length < 2 then xs
  else (npGradient xs dt).map fun v => if v < 0 then 0 else v

/-- Embedding of stream_positive_derivative: each trace carries its data and
its sample interval (tr.stats.delta). -/
def stream_positive_derivative (st : List (List ℚ × ℚ)) : List (List ℚ × ℚ) :=
  st.map fun tr => (posDerivTrace tr.1 tr.2, tr.2)

/- ## stream_taper (OP_waveforms.py, lines 896-914) -/

/-- Embedding of stream_taper.  The loop body evaluates
invsim.cosine_taper(tr.stats.npts), but the module imports only the bare name
cosine_taper (from obspy.signal.invsim import cosine_taper); the name invsim
is unbound, so the first iteration raises NameError, which the except clause
(limited to ValueError) does not catch.  Hence every call on a non-empty
stream raises; an empty stream is returned unchanged. -/
def stream_taper (st : List (List ℚ)) : Except PyError (List (List ℚ)) :=
  match st with
  | [] => .ok []
  | _ :: _ => .error .nameError

/- ## process_kurtosis, sliding-window branch (OP_waveforms.py, lines 750-794) -/

/-- Embedding of the per-trace body of Waveform.process_kurtosis with
recursive=False (the sliding-window kurtosis).  The functions sw_kurtosis1 and
smooth live in the filters module, which is not part of the visible source;
they are abstracted as the parameters sw and sm.  nwin models int(win/dt)
(floor; identical to python int() for the non-negative quotients used here).
The trace data becomes sm (sw x nwin) when len(x) > 3*nwin and otherwise
stays the all-zero array np.zeros(npts) allocated before the branch. -/
def process_kurtosis_sliding_trace (sw : List ℚ → ℕ → List ℚ) (sm : List ℚ → List ℚ)
    (win dt : ℚ) (x : List ℚ) : List ℚ :=
  let nwin := (⌊win / dt⌋).toNat
  if 3 * nwin < x.length then sm (sw x nwin) else List.replicate x.length 0

/- ## read_data_compatible_with_time_dict (OP_waveforms.py, lines 917-971) -/

/-- One input file of read_data_compatible_with_time_dict, as the loop body
observes it.  The file reading itself (obspy read, merging, padding) is
external I/O abstracted into fields: delta is st[0].stats.delta from the
header, station is st[0].stats.station, covered records whether
Waveform.read_from_file finds data between starttime and endtime (it raises
UserWarning otherwise, which the loop catches), and values is the padded data
wf.values delivered when covered. -/
structure DataFile where
  delta : ℚ
  station : ℕ
  covered : Bool
  values : List ℚ
deriving DecidableEq, Repr

/-- Embedding of one iteration of the file loop: the data dictionary gains the
entry data[station] = values exactly when the station is a key of the time
dictionary and the file covers the requested window; otherwise the dictionary
is unchanged (the source only logs). -/
def updateData (td : List ℕ) (acc : ℕ → Option (List ℚ)) (f : DataFile) :
    ℕ → Option (List ℚ) :=
  if f.station ∈ td ∧ f.covered = true then
    fun s => if s = f.station then some f.values else acc s
  else acc

/-- Specification-level description of the data dictionary built by the loop:
the values of the last file for station s that is a key of the time dictionary
and covers the window (python dict assignment lets the last write win). -/
def lastRelevant : List DataFile → List ℕ → ℕ → Option DataFile
  | [], _, _ => none
  | f :: t, td, s =>
    match lastRelevant t td s with
    | some g => some g
    | none => if f.station = s ∧ s ∈ td ∧ f.covered = true then some f else none

/-- Embedding of read_data_compatible_with_time_dict.  Every file contributes
its delta to the uniqueness check, whether or not its station is used; if the
distinct deltas are more than one the call raises UserWarning, otherwise it
returns the data dictionary together with u[0] (on an empty file list u[0]
raises IndexError). -/
def read_data_compatible_with_time_dict (files : List DataFile) (td : List ℕ) :
    Except PyError ((ℕ → Option (List ℚ)) × ℚ) :=
  let data := files.foldl (fun acc f => updateData td acc f) (fun _ => none)
  let u := npUnique (files.map fun f => f.delta)
  if 1 < u.length then .error .userWarning
  else
    match u with
    | [] => .error .indexError
    | d :: _ => .ok (data, d)

/-- Projection of the result of read_data_compatible_with_time_dict onto one
station of the data dictionary (none when the call raised). -/
def dataOf (r : Except PyError ((ℕ → Option (List ℚ)) × ℚ)) (s : ℕ) :
    Option (List ℚ) :=
  match r with
  | .ok p => p.1 s
  | .error _ => none

/-- Projection of the result of read_data_compatible_with_time_dict onto the
returned shared sample interval (none when the call raised). -/
def deltaOf (r : Except PyError ((ℕ → Option (List ℚ)) × ℚ)) : Option ℚ :=
  match r with
  | .ok p => some p.2
  | .error _ => none

/- ## Supporting lemmas: array writes -/

@[simp] theorem length_listSet (l : List ℚ) (n : ℕ) (v : ℚ) :
    (listSet l n v).length = l.length := by
  induction l generalizing n with
  | nil => rfl
  | cons u t ih =>
    cases n with
    | zero => rfl
    | succ m => simp [listSet, ih]

@[simp] theorem length_zeroRangeAux (l : List ℚ) (k lo hi : ℕ) :
    (zeroRangeAux l k lo hi).length = l.length := by
  induction l generalizing k with
  | nil => rfl
  | cons v t ih => simp [zeroRangeAux, ih]

theorem getD_listSet (l : List ℚ) (n : ℕ) (v : ℚ) (i : ℕ) :
    (listSet l n v).getD i 0 =
      if i = n ∧ n < l.length then v else l.getD i 0 := by
  induction l generalizing n i with
  | nil => simp [listSet]
  | cons u t ih =>
    cases n with
    | zero =>
      cases i with
      | zero => simp [listSet]
      | succ j => simp [listSet]
    | succ m =>
      cases i with
      | zero => simp [listSet]
      | succ j =>
        simp only [listSet, List.getD_cons_succ, ih, List.length_cons]
        by_cases h : j = m ∧ m < t.length
        · rw [if_pos h, if_pos (by omega)]
        · rw [if_neg h, if_neg (by omega)]

theorem getD_zeroRangeAux (l : List ℚ) (k lo hi : ℕ) (i : ℕ) :
    (zeroRangeAux l k lo hi).getD i 0 =
      if i < l.length ∧ lo ≤ k + i ∧ k + i < hi then 0 else l.getD i 0 := by
  induction l generalizing k i with
  | nil => simp [zeroRangeAux]
  | cons v t ih =>
    cases i with
    | zero =>
      simp only [zeroRangeAux, List.getD_cons_zero, List.length_cons]
      by_cases h : lo ≤ k ∧ k < hi
      · rw [if_pos h, if_pos (by omega)]
      · rw [if_neg h, if_neg (by omega)]
    | succ j =>
      simp only [zeroRangeAux, List.getD_cons_succ, List.length_cons, ih (k + 1) j]
      by_cases h : j < t.length ∧ lo ≤ k + 1 + j ∧ k + 1 + j < hi
      · rw [if_pos h, if_pos (by omega)]
      · rw [if_neg h, if_neg (by omega)]

theorem getD_replicate_zero (n i : ℕ) :
    (List.replicate n (0 : ℚ)).getD i 0 = 0 := by
  induction n generalizing i with
  | zero => simp
  | succ m ih =>
    cases i with
    | zero => simp [List.replicate]
    | succ j => simp [List.replicate, ih j]

/- ## Supporting lemmas: the dirac buffer of process_gaussian -/

theorem diracStep_length (x : List ℚ) (st : List ℚ × (ℕ × ℕ)) (trig : ℕ × ℕ) :
    ((diracStep x st trig).1).length = st.1.length := by
  simp [diracStep]

theorem diracStep_entries (x : List ℚ) (st : List ℚ × (ℕ × ℕ)) (trig : ℕ × ℕ)
    (h : ∀ i, st.1.getD i 0 ≠ 0 → st.1.getD i 0 = x.getD i 0) :
    ∀ i, ((diracStep x st trig).1).getD i 0 ≠ 0 →
      ((diracStep x st trig).1).getD i 0 = x.getD i 0 := by
  intro i hi
  simp only [diracStep] at hi ⊢
  set t := if (trig.2 : ℤ) - (st.2.1 : ℤ) < 50 then (st.2.1, trig.2) else trig with ht
  set imax := if t.1 ≠ t.2 then npArgmax (sliceIncl x t.1 t.2) + t.1 else t.1 with him
  rw [getD_listSet] at hi ⊢
  by_cases hc : i = imax ∧ imax < (zeroRangeAux st.1 0 t.1 t.2).length
  · rw [if_pos hc] at hi ⊢
    rw [hc.1]
  · rw [if_neg hc] at hi ⊢
    rw [getD_zeroRangeAux] at hi ⊢
    by_cases hz : i < st.1.length ∧ t.1 ≤ 0 + i ∧ 0 + i < t.2
    · rw [if_pos hz] at hi
      exact absurd rfl hi
    · rw [if_neg hz] at hi ⊢
      exact h i hi

theorem dirac_entries (x : List ℚ) (thr : ℚ) :
    ∀ i, (diracOf x thr).getD i 0 ≠ 0 → (diracOf x thr).getD i 0 = x.getD i 0 := by
  unfold diracOf
  generalize triggerOnset x thr = trigs
  have main : ∀ (ts : List (ℕ × ℕ)) (st : List ℚ × (ℕ × ℕ)),
      (∀ i, st.1.getD i 0 ≠ 0 → st.1.getD i 0 = x.getD i 0) →
      ∀ i, ((ts.foldl (diracStep x) st).1).getD i 0 ≠ 0 →
        ((ts.foldl (diracStep x) st).1).getD i 0 = x.getD i 0 := by
    intro ts
    induction ts with
    | nil => intro st h; exact h
    | cons trig rest ih =>
      intro st h
      exact ih (diracStep x st trig) (diracStep_entries x st trig h)
  exact main trigs (List.replicate x.length 0, (0, 0))
    (fun i hi => absurd (getD_replicate_zero x.length i) hi)

theorem dirac_length (x : List ℚ) (thr : ℚ) :
    (diracOf x thr).length = x.length := by
  unfold diracOf
  generalize triggerOnset x thr = trigs
  have main : ∀ (ts : List (ℕ × ℕ)) (st : List ℚ × (ℕ × ℕ)),
      ((ts.foldl (diracStep x) st).1).length = st.1.length := by
    intro ts
    induction ts with
    | nil => intro st; rfl
    | cons trig rest ih =>
      intro st
      rw [List.foldl_cons, ih (diracStep x st trig), diracStep_length]
  rw [main trigs (List.replicate x.length 0, (0, 0))]
  exact List.length_replicate x.length 0

/- ## Claims C2, C3, C4, C8 -/

/-- Claim C2, counterexample.  With windowSamples = 2 (win = 2, dt = 1) and an
input of length 6 = 3*windowSamples, the degenerate branch returns an array of
the full input length 6, not of the claimed effective length
len(x) - windowSamples + 1 = 5. -/
theorem claim2_counterexample :
    (process_kurtosis_sliding_trace (fun x _ => x) (fun l => l) 2 1
        [1, 2, 3, 4, 5, 6]).length = 6 ∧ (6 : ℕ) ≠ 6 - 2 + 1 := by
  have hfl : (⌊(2 : ℚ) / 1⌋).toNat = 2 := by
    rw [show ⌊(2 : ℚ) / 1⌋ = 2 by norm_num]
    decide
  constructor
  · simp [process_kurtosis_sliding_trace, hfl]
  · decide

/-- Claim C2 (amended): for every input x and window with
len(x) <= 3*windowSamples, the sliding-window kurtosis branch returns an
all-zero array of the full input length len(x) rather than failing. -/
theorem claim2_degenerate (sw : List ℚ → ℕ → List ℚ) (sm : List ℚ → List ℚ)
    (win dt : ℚ) (x : List ℚ) (h : x.length ≤ 3 * (⌊win / dt⌋).toNat) :
    process_kurtosis_sliding_trace sw sm win dt x = List.replicate x.length 0 := by
  unfold process_kurtosis_sliding_trace
  rw [if_neg (by omega)]

/-- Claim C2 (amended), witness at a concrete input of length 3 with
windowSamples 2. -/
theorem claim2_degenerate_witness :
    process_kurtosis_sliding_trace (fun x _ => x) (fun l => l) 2 1 [1, 2, 3]
      = List.replicate 3 0 := by
  have hfl : (⌊(2 : ℚ) / 1⌋).toNat = 2 := by
    rw [show ⌊(2 : ℚ) / 1⌋ = 2 by norm_num]
    decide
  exact claim2_degenerate (fun x _ => x) (fun l => l) 2 1 [1, 2, 3] (by rw [hfl]; decide)

/-- Claim C3 (code bug): the spec and the docstring of
stream_positive_derivative promise an output with no negative values, but on
the one-sample trace [-1] the gradient call raises IndexError, the except
branch passes the data through unchanged, and the returned trace still
contains the negative value -1. -/
theorem claim3_negative_output :
    stream_positive_derivative [([-1], 1)] = [([-1], 1)] ∧ (-1 : ℚ) < 0 := by
  constructor
  · rfl
  · decide

/-- Claim C4, counterexample.  On the length-1 input [5] the transform returns
[5], not the all-zero array [0] of matching length that the claim demands. -/
theorem claim4_counterexample :
    posDerivTrace [5] 1 = [5] ∧ posDerivTrace [5] 1 ≠ [0] := by
  constructor
  · rfl
  · decide

/-- Claim C4 (amended): for every input array of length < 2 the
positive-derivative transform returns the input unchanged rather than raising;
in particular a length-0 input yields the empty (vacuously all-zero) array,
while a length-1 input keeps its original sample. -/
theorem claim4_short_passthrough (xs : List ℚ) (dt : ℚ) (h : xs.length < 2) :
    posDerivTrace xs dt = xs := by
  unfold posDerivTrace
  rw [if_pos h]

/-- Claim C4 (amended), witness at the concrete length-1 input [5]. -/
theorem claim4_short_passthrough_witness : posDerivTrace [5] 1 = [5] :=
  claim4_short_passthrough [5] 1 (by decide)

/-- Claim C8 (code bug): the taper is never applied.  The claim describes the
intended behaviour (zeros for too-short segments, pointwise cosine taper
otherwise), but stream_taper as written references the unbound name invsim and
raises NameError on every non-empty stream; here it is evaluated at the
three-sample trace the claim says would be multiplied by the taper. -/
theorem claim8_taper_nameerror :
    stream_taper [[1, 2, 3]] = .error .nameError := rfl

/- ## Claim C5 -/

/-- Claim C5, counterexample.  On the signal [0, 2, 0] with threshold 1 the
single trigger interval is processed into an impulse of amplitude 2 (the
signal value at the maximum sample), not the unit amplitude 1 the claim
states. -/
theorem claim5_counterexample :
    (diracOf [0, 2, 0] 1).getD 1 0 = 2 ∧ (2 : ℚ) ≠ 1 := by
  constructor
  · decide
  · decide

/-- Claim C5 (amended): in process_gaussian, a trigger interval is merged with
the previously processed interval whenever its end lies fewer than 50 samples
after the start of that previous interval (the first interval being compared
against the sentinel [0, 0]), and each processed interval contributes a single
impulse at its sample of maximum value whose amplitude equals the signal value
at that sample (a unit impulse only when that value is 1): every non-zero
sample of the impulse train equals the signal at the same index. -/
theorem claim5_impulse_amplitude (x : List ℚ) (thr : ℚ) (i : ℕ)
    (h : (diracOf x thr).getD i 0 ≠ 0) :
    (diracOf x thr).getD i 0 = x.getD i 0 :=
  dirac_entries x thr i h

/-- Claim C5 (amended), witness on the concrete signal [0, 3, 0] with
threshold 1: the surviving impulse at index 1 carries the signal value. -/
theorem claim5_impulse_amplitude_witness :
    (diracOf [0, 3, 0] 1).getD 1 0 = ([0, 3, 0] : List ℚ).getD 1 0 :=
  claim5_impulse_amplitude [0, 3, 0] 1 1 (by decide)

/- ## Supporting lemmas: npMax and npArange -/

theorem le_foldl_max (t : List ℚ) : ∀ a : ℚ, a ≤ t.foldl max a := by
  induction t with
  | nil => intro a; exact le_refl a
  | cons v s ih =>
    intro a
    exact le_trans (le_max_left a v) (ih (max a v))

theorem foldl_max_mem (t : List ℚ) : ∀ a : ℚ, t.foldl max a = a ∨ t.foldl max a ∈ t := by
  induction t with
  | nil => intro a; exact Or.inl rfl
  | cons v s ih =>
    intro a
    rcases ih (max a v) with h | h
    · rcases max_choice a v with hm | hm
      · exact Or.inl (by rw [List.foldl_cons, h, hm])
      · exact Or.inr (by rw [List.foldl_cons, h, hm]; exact List.mem_cons_self v s)
    · exact Or.inr (List.mem_cons_of_mem v h)

theorem mem_le_foldl_max (t : List ℚ) : ∀ a x : ℚ, x ∈ t → x ≤ t.foldl max a := by
  induction t with
  | nil => intro a x hx; exact absurd hx (List.not_mem_nil x)
  | cons v s ih =>
    intro a x hx
    rcases List.mem_cons.mp hx with h | h
    · rw [h, List.foldl_cons]
      exact le_trans (le_max_right a v) (le_foldl_max s (max a v))
    · exact ih (max a v) x h

theorem npMax_mem (l : List ℚ) (h : l ≠ []) : npMax l ∈ l := by
  match l with
  | [] => exact absurd rfl h
  | a :: t =>
    rcases foldl_max_mem t a with h1 | h1
    · rw [npMax, h1]; exact List.mem_cons_self a t
    · rw [npMax]; exact List.mem_cons_of_mem a h1

theorem le_npMax (l : List ℚ) (x : ℚ) (h : x ∈ l) : x ≤ npMax l := by
  match l with
  | [] => exact absurd h (List.not_mem_nil x)
  | a :: t =>
    rcases List.mem_cons.mp h with h1 | h1
    · rw [h1, npMax]; exact le_foldl_max t a
    · rw [npMax]; exact mem_le_foldl_max t a x h1

theorem npMax_eq_one (l : List ℚ) (h1 : (1 : ℚ) ∈ l) (h2 : ∀ x ∈ l, x ≤ 1) :
    npMax l = 1 :=
  le_antisymm (h2 _ (npMax_mem l (List.ne_nil_of_mem h1))) (le_npMax l 1 h1)

theorem npArange_eq (start stop step : ℚ) :
    npArange start stop step
      = (List.range ((⌈(stop - start) / step⌉).toNat)).map
          (fun k : ℕ => start + (k : ℚ) * step) := rfl

theorem mem_npArange_start (start stop step : ℚ) (h : 0 < (stop - start) / step) :
    start ∈ npArange start stop step := by
  rw [npArange_eq]
  refine List.mem_map.mpr ⟨0, List.mem_range.mpr ?_, by simp⟩
  exact Int.lt_toNat.mpr (by exact_mod_cast Int.ceil_pos.mpr h)

theorem npArange_mem_bounds (start stop step : ℚ) (hstep : 0 < step) :
    ∀ t ∈ npArange start stop step, start ≤ t ∧ t < stop := by
  intro t ht
  rw [npArange_eq] at ht
  rcases List.mem_map.mp ht with ⟨k, hk, rfl⟩
  have hk2 : (k : ℤ) < ⌈(stop - start) / step⌉ := Int.lt_toNat.mp (List.mem_range.mp hk)
  constructor
  · have : 0 ≤ (k : ℚ) * step := mul_nonneg (by positivity) hstep.le
    linarith
  · have hceil : (⌈(stop - start) / step⌉ : ℚ) < (stop - start) / step + 1 :=
      Int.ceil_lt_add_one ((stop - start) / step)
    have hkq : (k : ℚ) ≤ (⌈(stop - start) / step⌉ : ℚ) - 1 := by
      have : (k : ℤ) ≤ ⌈(stop - start) / step⌉ - 1 := by omega
      exact_mod_cast this
    have hklt : (k : ℚ) < (stop - start) / step := by linarith
    have : (k : ℚ) * step < (stop - start) / step * step :=
      mul_lt_mul_of_pos_right hklt hstep
    rw [div_mul_cancel₀ (stop - start) hstep.ne'] at this
    linarith

/- ## Claim C6 -/

/-- Claim C6: for every dt > 0, mean mu and sigma > 0 (the other two
parameters abstracting sqrt(2*pi) and exp being positive), the discretized
Gaussian kernel of compute_gauss samples the half-open support from -4*sigma
(its first grid point, always present) up to but excluding +4*sigma, and is
peak-normalized: its maximum element equals 1. -/
theorem claim6_gauss (dt mu sig s2pi : ℚ) (gexp : ℚ → ℚ) (hdt : 0 < dt)
    (hsig : 0 < sig) (hs : 0 < s2pi) (hg : ∀ q, 0 < gexp q) :
    (-(4 * sig)) ∈ npArange (-(4 * sig)) (4 * sig) dt ∧
    (∀ t ∈ npArange (-(4 * sig)) (4 * sig) dt, -(4 * sig) ≤ t ∧ t < 4 * sig) ∧
    npMax (compute_gauss dt mu sig s2pi gexp) = 1 := by
  have hpos : 0 < (4 * sig - -(4 * sig)) / dt := div_pos (by linarith) hdt
  refine ⟨mem_npArange_start _ _ _ hpos, npArange_mem_bounds _ _ _ hdt, ?_⟩
  unfold compute_gauss
  set xs := npArange (-(4 * sig)) (4 * sig) dt with hxs
  set ys := xs.map fun t => 1 / (sig * s2pi) * gexp (-((t - mu) ^ 2) / (2 * sig ^ 2))
    with hys
  have hx : xs ≠ [] := List.ne_nil_of_mem (mem_npArange_start _ _ _ hpos)
  have hy : ys ≠ [] := by
    rw [hys]
    simpa using hx
  have hypos : ∀ b ∈ ys, 0 < b := by
    intro b hb
    rcases List.mem_map.mp hb with ⟨t, _, rfl⟩
    exact mul_pos (by positivity) (hg _)
  have hM : 0 < npMax ys := hypos _ (npMax_mem ys hy)
  refine npMax_eq_one _ ?_ ?_
  · exact List.mem_map.mpr ⟨npMax ys, npMax_mem ys hy, div_self hM.ne'⟩
  · intro z hz
    rcases List.mem_map.mp hz with ⟨b, hb, rfl⟩
    exact (div_le_one hM).mpr (le_npMax ys b hb)

/-- Claim C6, witness at dt = 1, mu = 0, sigma = 1 with both abstracted
positive constants instantiated to 1. -/
theorem claim6_gauss_witness :
    (-(4 * (1 : ℚ))) ∈ npArange (-(4 * (1 : ℚ))) (4 * 1) 1 ∧
    npMax (compute_gauss 1 0 1 1 fun _ => 1) = 1 :=
  ⟨(claim6_gauss 1 0 1 1 (fun _ => 1) one_pos one_pos one_pos fun _ => one_pos).1,
   (claim6_gauss 1 0 1 1 (fun _ => 1) one_pos one_pos one_pos fun _ => one_pos).2.2⟩

/- ## Supporting lemmas: convolution shape -/

theorem length_convolveFull (a v : List ℚ) :
    (convolveFull a v).length = a.length + v.length - 1 := by
  simp [convolveFull]

theorem length_convolveSame (a v : List ℚ) (ha : a ≠ []) (hv : v ≠ []) :
    (convolveSame a v).length = max a.length v.length := by
  have h1 : 0 < a.length := List.length_pos.mpr ha
  have h2 : 0 < v.length := List.length_pos.mpr hv
  simp only [convolveSame, List.length_take, List.length_drop, length_convolveFull]
  omega

theorem gaussian_trace_spec (x : List ℚ) (thr : ℚ) (y : List ℚ)
    (hx : x ≠ []) (hy : y ≠ []) :
    (process_gaussian_trace x thr y).length = max x.length y.length ∧
    (process_gaussian_trace x thr y).getLast? = some 0 := by
  have hd : (diracOf x thr).length = x.length := dirac_length x thr
  have hdne : diracOf x thr ≠ [] := by
    intro h
    rw [h] at hd
    exact hx (List.length_eq_zero.mp hd.symm)
  unfold process_gaussian_trace
  rw [if_neg (not_or.mpr ⟨hdne, hy⟩)]
  constructor
  · rw [List.length_append, List.length_drop, length_convolveSame _ _ hdne hy, hd]
    have h1 : 0 < x.length := List.length_pos.mpr hx
    simp only [List.length_cons, List.length_nil]
    omega
  · simp [List.getLast?_concat]

/- ## Claim C10 -/

/-- Claim C10, counterexample.  On the one-sample trace [5] with the concrete
Gaussian kernel of compute_gauss at dt = 1, sigma = 1 (kernel length 8, longer
than the trace), the output of the Gaussian re-weighting has length 8, not the
input length 1: np.convolve in mode same returns max(M, N) samples, not always
len(input). -/
theorem claim10_counterexample :
    (process_gaussian_trace [5] 1 (compute_gauss 1 0 1 1 fun _ => 1)).length = 8 ∧
    (8 : ℕ) ≠ ([5] : List ℚ).length := by
  have hyl : (compute_gauss 1 0 1 1 fun _ => 1).length = 8 := by
    simp only [compute_gauss, npArange_eq, List.length_map, List.length_range]
    rw [show ((4 : ℚ) * 1 - -(4 * 1)) / 1 = 8 by norm_num]
    rw [show ⌈(8 : ℚ)⌉ = 8 by norm_num]
    decide
  have hyne : compute_gauss 1 0 1 1 (fun _ => 1) ≠ [] := by
    intro h
    rw [h] at hyl
    simp at hyl
  have h := gaussian_trace_spec [5] 1 (compute_gauss 1 0 1 1 fun _ => 1) (by simp) hyne
  constructor
  · rw [h.1, hyl]
    decide
  · decide

/-- Claim C10 (amended): for every non-empty input trace and non-empty kernel,
the Gaussian re-weighting transform produces an output of length
max(len(input), len(kernel)) - equal to the input length exactly when the
kernel is no longer than the trace - whose final sample is 0, the convolution
result (mode same) being shifted left by one sample with a zero appended. -/
theorem claim10_length_shape (x : List ℚ) (thr : ℚ) (y : List ℚ)
    (hx : x ≠ []) (hy : y ≠ []) :
    (process_gaussian_trace x thr y).length = max x.length y.length ∧
    (process_gaussian_trace x thr y).getLast? = some 0 :=
  gaussian_trace_spec x thr y hx hy

/-- Claim C10 (amended), witness on the trace [1, 2] with the one-sample
kernel [3] and threshold 5. -/
theorem claim10_length_shape_witness :
    (process_gaussian_trace [1, 2] 5 [3]).length
        = max ([1, 2] : List ℚ).length ([3] : List ℚ).length ∧
    (process_gaussian_trace [1, 2] 5 [3]).getLast? = some 0 :=
  claim10_length_shape [1, 2] 5 [3] (by simp) (by simp)

/- ## Supporting lemmas: the data dictionary and the delta uniqueness check -/

theorem foldData_apply (td : List ℕ) :
    ∀ (files : List DataFile) (acc : ℕ → Option (List ℚ)) (s : ℕ),
      (files.foldl (fun a f => updateData td a f) acc) s
        = match lastRelevant files td s with
          | some f => some f.values
          | none => acc s := by
  intro files
  induction files with
  | nil => intro acc s; rfl
  | cons f t ih =>
    intro acc s
    rw [List.foldl_cons, ih (updateData td acc f) s]
    cases hlr : lastRelevant t td s with
    | some g => simp [lastRelevant, hlr]
    | none =>
      simp only [lastRelevant, hlr]
      by_cases hc : f.station = s ∧ s ∈ td ∧ f.covered = true
      · rw [if_pos hc]
        unfold updateData
        rw [if_pos ⟨by rw [hc.1]; exact hc.2.1, hc.2.2⟩, if_pos hc.1.symm]
      · rw [if_neg hc]
        unfold updateData
        by_cases hm : f.station ∈ td ∧ f.covered = true
        · rw [if_pos hm]
          have hs : s ≠ f.station := by
            intro he
            exact hc ⟨he.symm, by rw [he]; exact hm.1, hm.2⟩
          rw [if_neg hs]
        · rw [if_neg hm]

theorem dedup_all_eq {l : List ℚ} {d : ℚ} (hne : l ≠ []) (h : ∀ a ∈ l, a = d) :
    l.dedup = [d] := by
  induction l with
  | nil => exact absurd rfl hne
  | cons a t ih =>
    have ha : a = d := h a (List.mem_cons_self a t)
    cases t with
    | nil =>
      rw [List.dedup_cons_of_not_mem (List.not_mem_nil a), List.dedup_nil, ha]
    | cons b t2 =>
      have hb : b = d := h b (List.mem_cons_of_mem a (List.mem_cons_self b t2))
      have hmem : a ∈ b :: t2 := by
        rw [ha, hb]
        exact List.mem_cons_self d t2
      rw [List.dedup_cons_of_mem hmem]
      exact ih (List.cons_ne_nil b t2) fun x hx => h x (List.mem_cons_of_mem a hx)

theorem npUnique_all_eq {l : List ℚ} {d : ℚ} (hne : l ≠ []) (h : ∀ a ∈ l, a = d) :
    npUnique l = [d] := by
  unfold npUnique
  rw [dedup_all_eq hne h]
  rfl

theorem length_npUnique (l : List ℚ) : (npUnique l).length = l.dedup.length :=
  (List.perm_insertionSort _ _).length_eq

theorem one_lt_dedup_of_ne {l : List ℚ} {a b : ℚ} (ha : a ∈ l) (hb : b ∈ l)
    (hne : a ≠ b) : 1 < l.dedup.length := by
  have ha2 : a ∈ l.dedup := List.mem_dedup.mpr ha
  have hb2 : b ∈ l.dedup := List.mem_dedup.mpr hb
  match hd : l.dedup with
  | [] =>
    rw [hd] at ha2
    exact absurd ha2 (List.not_mem_nil a)
  | [x] =>
    rw [hd] at ha2 hb2
    simp at ha2 hb2
    exact absurd (ha2.trans hb2.symm) hne
  | x :: y :: t =>
    simp [List.length_cons]

theorem dedup_pair_of_one_lt {l : List ℚ} (h : 1 < l.dedup.length) :
    ∃ a ∈ l, ∃ b ∈ l, a ≠ b := by
  match hd : l.dedup with
  | [] =>
    rw [hd] at h
    simp at h
  | [x] =>
    rw [hd] at h
    simp at h
  | x :: y :: t =>
    have hnd := List.nodup_dedup l
    rw [hd, List.nodup_cons] at hnd
    have hxy : x ≠ y := fun he => hnd.1 (by rw [he]; exact List.mem_cons_self y t)
    have hx : x ∈ l := List.mem_dedup.mp (by rw [hd]; exact List.mem_cons_self x (y :: t))
    have hy : y ∈ l := List.mem_dedup.mp
      (by rw [hd]; exact List.mem_cons_of_mem x (List.mem_cons_self y t))
    exact ⟨x, hx, y, hy, hxy⟩

theorem read_eq_of_one_lt (files : List DataFile) (td : List ℕ)
    (h : 1 < (npUnique (files.map fun f => f.delta)).length) :
    read_data_compatible_with_time_dict files td = .error .userWarning := by
  simp only [read_data_compatible_with_time_dict]
  rw [if_pos h]

theorem read_eq_of_single (files : List DataFile) (td : List ℕ) (d : ℚ)
    (h : npUnique (files.map fun f => f.delta) = [d]) :
    read_data_compatible_with_time_dict files td
      = .ok (files.foldl (fun acc f => updateData td acc f) fun _ => none, d) := by
  simp only [read_data_compatible_with_time_dict]
  rw [h]
  rfl

theorem read_ok_all_eq (files : List DataFile) (td : List ℕ) (hne : files ≠ [])
    (hall : ∀ f1 ∈ files, ∀ f2 ∈ files, f1.delta = f2.delta) :
    read_data_compatible_with_time_dict files td
      = .ok (files.foldl (fun acc f => updateData td acc f) fun _ => none,
             (files.head hne).delta) := by
  apply read_eq_of_single
  apply npUnique_all_eq
  · simpa using hne
  · intro a ha
    rcases List.exists_of_mem_map ha with ⟨f, hf, he⟩
    rw [← he]
    exact hall f hf _ (List.head_mem hne)

theorem read_error_iff (files : List DataFile) (td : List ℕ) :
    read_data_compatible_with_time_dict files td = .error .userWarning ↔
      ∃ f1 ∈ files, ∃ f2 ∈ files, f1.delta ≠ f2.delta := by
  constructor
  · intro h
    by_cases hlen : 1 < (npUnique (files.map fun f => f.delta)).length
    · rw [length_npUnique] at hlen
      rcases dedup_pair_of_one_lt hlen with ⟨a, ha, b, hb, hab⟩
      rcases List.exists_of_mem_map ha with ⟨g1, hg1, he1⟩
      rcases List.exists_of_mem_map hb with ⟨g2, hg2, he2⟩
      exact ⟨g1, hg1, g2, hg2, by rw [he1, he2]; exact hab⟩
    · exfalso
      simp only [read_data_compatible_with_time_dict] at h
      rw [if_neg hlen] at h
      cases hu : npUnique (files.map fun f => f.delta) with
      | nil =>
        rw [hu] at h
        simp at h
      | cons d rest =>
        rw [hu] at h
        simp at h
  · intro h
    rcases h with ⟨f1, hf1, f2, hf2, hd⟩
    apply read_eq_of_one_lt
    rw [length_npUnique]
    exact one_lt_dedup_of_ne (List.mem_map_of_mem _ hf1) (List.mem_map_of_mem _ hf2) hd

theorem read_ok_data (files : List DataFile) (td : List ℕ)
    (p : (ℕ → Option (List ℚ)) × ℚ)
    (h : read_data_compatible_with_time_dict files td = .ok p) :
    p.1 = files.foldl (fun acc f => updateData td acc f) fun _ => none := by
  simp only [read_data_compatible_with_time_dict] at h
  by_cases hlen : 1 < (npUnique (files.map fun f => f.delta)).length
  · rw [if_pos hlen] at h
    simp at h
  · rw [if_neg hlen] at h
    cases hu : npUnique (files.map fun f => f.delta) with
    | nil =>
      rw [hu] at h
      simp at h
    | cons d rest =>
      rw [hu] at h
      simp only [Except.ok.injEq] at h
      rw [← h]

/- ## Claims C1, C7, C9 -/

/-- Claim C1: on a non-empty file list, if all recorded sample intervals are
equal the call returns the per-station data mapping (the values of the last
covered file of each station known to the time dictionary) together with that
single shared interval; if they are not all equal it raises UserWarning and
returns nothing. -/
theorem claim1_read_data (files : List DataFile) (td : List ℕ) (hne : files ≠ []) :
    ((∀ f1 ∈ files, ∀ f2 ∈ files, f1.delta = f2.delta) →
        deltaOf (read_data_compatible_with_time_dict files td)
            = some ((files.head hne).delta) ∧
        ∀ s, dataOf (read_data_compatible_with_time_dict files td) s
            = Option.map (fun f => f.values) (lastRelevant files td s)) ∧
    ((∃ f1 ∈ files, ∃ f2 ∈ files, f1.delta ≠ f2.delta) →
        read_data_compatible_with_time_dict files td = .error .userWarning) := by
  constructor
  · intro hall
    have hok := read_ok_all_eq files td hne hall
    constructor
    · rw [hok]
      rfl
    · intro s
      rw [hok]
      simp only [dataOf]
      rw [foldData_apply td files (fun _ => none) s]
      cases lastRelevant files td s with
      | none => rfl
      | some f => rfl
  · intro h
    exact (read_error_iff files td).mpr h

/-- Claim C1, witness: a two-file list with equal deltas returns the data of
its covered station and the shared delta; a two-file list with unequal deltas
raises UserWarning. -/
theorem claim1_read_data_witness :
    deltaOf (read_data_compatible_with_time_dict
        [⟨1, 7, true, [1, 2]⟩, ⟨1, 8, false, [3]⟩] [7, 8]) = some 1 ∧
    dataOf (read_data_compatible_with_time_dict
        [⟨1, 7, true, [1, 2]⟩, ⟨1, 8, false, [3]⟩] [7, 8]) 7 = some [1, 2] ∧
    read_data_compatible_with_time_dict
        [⟨1, 7, true, [1, 2]⟩, ⟨2, 9, false, []⟩] [7, 8] = .error .userWarning := by
  have h1 := (claim1_read_data [⟨1, 7, true, [1, 2]⟩, ⟨1, 8, false, [3]⟩] [7, 8]
      (by simp)).1 (by decide)
  have h2 := (claim1_read_data [⟨1, 7, true, [1, 2]⟩, ⟨2, 9, false, []⟩] [7, 8]
      (by simp)).2
    ⟨⟨1, 7, true, [1, 2]⟩, by decide, ⟨2, 9, false, []⟩, by decide, by decide⟩
  exact ⟨h1.1, (h1.2 7).trans (by decide), h2⟩

/-- Claim C7: the call aborts with UserWarning exactly when two files record
different sample intervals, independently of station membership or window
coverage; and a station for which no file is both known to the time dictionary
and covering the window is omitted from the returned data mapping, coverage
gaps never being fatal by themselves. -/
theorem claim7_coverage (files : List DataFile) (td : List ℕ) :
    (read_data_compatible_with_time_dict files td = .error .userWarning ↔
      ∃ f1 ∈ files, ∃ f2 ∈ files, f1.delta ≠ f2.delta) ∧
    ∀ s, lastRelevant files td s = none →
      dataOf (read_data_compatible_with_time_dict files td) s = none := by
  constructor
  · exact read_error_iff files td
  · intro s hs
    cases hr : read_data_compatible_with_time_dict files td with
    | error e => rfl
    | ok p =>
      simp only [dataOf]
      rw [read_ok_data files td p hr, foldData_apply td files (fun _ => none) s, hs]

/-- Claim C7, witness: station 8 is present in the time dictionary but its
file does not cover the window, so it is omitted while the call succeeds; a
delta mismatch (between a used and an ignored file) is what raises
UserWarning. -/
theorem claim7_coverage_witness :
    dataOf (read_data_compatible_with_time_dict
        [⟨1, 7, true, [4]⟩, ⟨1, 8, false, [6]⟩, ⟨1, 9, true, [7]⟩] [7, 8]) 8 = none ∧
    read_data_compatible_with_time_dict
        [⟨1, 7, true, [4]⟩, ⟨2, 8, false, [6]⟩] [7, 8] = .error .userWarning := by
  refine ⟨(claim7_coverage [⟨1, 7, true, [4]⟩, ⟨1, 8, false, [6]⟩, ⟨1, 9, true, [7]⟩]
      [7, 8]).2 8 (by decide), ?_⟩
  exact (claim7_coverage [⟨1, 7, true, [4]⟩, ⟨2, 8, false, [6]⟩] [7, 8]).1.mpr
    ⟨⟨1, 7, true, [4]⟩, by decide, ⟨2, 8, false, [6]⟩, by decide, by decide⟩

/-- Claim C9: the sample-interval uniqueness check covers every input file;
two files with different deltas make the call raise UserWarning even when one
of them is ignored (station absent from the time dictionary, or no data in the
window), because every delta is appended to the check list before the station
test. -/
theorem claim9_delta_check (files : List DataFile) (td : List ℕ) (f1 f2 : DataFile)
    (h1 : f1 ∈ files) (h2 : f2 ∈ files) (hd : f1.delta ≠ f2.delta) :
    read_data_compatible_with_time_dict files td = .error .userWarning := by
  apply read_eq_of_one_lt
  rw [length_npUnique]
  exact one_lt_dedup_of_ne (List.mem_map_of_mem _ h1) (List.mem_map_of_mem _ h2) hd

/-- Claim C9, witness: the mismatched file belongs to station 99, which is
absent from the time dictionary and has no coverage, yet the call still raises
UserWarning. -/
theorem claim9_delta_check_witness :
    read_data_compatible_with_time_dict [⟨1, 7, true, [4]⟩, ⟨2, 99, false, []⟩] [7]
      = .error .userWarning :=
  claim9_delta_check [⟨1, 7, true, [4]⟩, ⟨2, 99, false, []⟩] [7]
    ⟨1, 7, true, [4]⟩ ⟨2, 99, false, []⟩ (by decide) (by decide) (by decide)
